import Mathlib

/-!
# Verification of the collabboard room-relay / page-synchronization server

Shallow embedding of the server-side socket handlers of the collaborative
whiteboard (the `rooms` map, the page list per room, and the event handlers
`joinRoom`, `addPage`, `removePage`, `updatePageState`, `requestInitialState`,
`draw`, `chatMessage`, `processWithAI`, `disconnect`), together with the
dedup-by-userId `joinRoom` variant.

JavaScript particulars modelled explicitly:
* the `rooms` `Map` is an insertion-ordered association list with unique keys;
* a missing `participants` field (the `addPage` handler creates rooms as
  `{ pages: [] }` with no `participants`) is `Option Int`s `none`; JS turns
  `undefined` into `NaN` under `++`/`--`, and `NaN <= 0` is `false`, so
  `none.incOpt = none`, `none.decOpt = none` and `leZeroOpt none = false`;
* page ids are `Date.now()` millisecond timestamps, passed to each handler
  as an explicit `now : Nat` argument;
* draw coordinates are JS numbers, modelled as `Option ℚ` (`none` for a
  non-numeric field, `some q` otherwise).
-/

namespace Collab

/-! ## Insertion-ordered map (JS `Map`) as an association list -/

def getR {α : Type} : List (String × α) → String → Option α
  | [], _ => none
  | (k1, v) :: r, k => if k1 = k then some v else getR r k

def setR {α : Type} : List (String × α) → String → α → List (String × α)
  | [], k, v => [(k, v)]
  | (k1, v1) :: r, k, v => if k1 = k then (k, v) :: r else (k1, v1) :: setR r k v

def delR {α : Type} : List (String × α) → String → List (String × α)
  | [], _ => []
  | (k1, v1) :: r, k => if k1 = k then r else (k1, v1) :: delR r k

theorem getR_setR_self {α : Type} (s : List (String × α)) (k : String) (v : α) :
    getR (setR s k v) k = some v := by
  induction s with
  | nil => simp [getR, setR]
  | cons p r ih =>
    obtain ⟨k1, v1⟩ := p
    by_cases h : k1 = k <;> simp [getR, setR, h, ih]

theorem getR_setR_ne {α : Type} (s : List (String × α)) (k k2 : String) (v : α)
    (h : k ≠ k2) : getR (setR s k v) k2 = getR s k2 := by
  induction s with
  | nil => simp [getR, setR, h]
  | cons p r ih =>
    obtain ⟨k1, v1⟩ := p
    by_cases h1 : k1 = k
    · subst h1
      simp [getR, setR, h]
    · simp only [setR, if_neg h1, getR]
      by_cases h2 : k1 = k2 <;> simp [h2, ih]

theorem getR_delR_ne {α : Type} (s : List (String × α)) (k k2 : String)
    (h : k ≠ k2) : getR (delR s k) k2 = getR s k2 := by
  induction s with
  | nil => simp [delR]
  | cons p r ih =>
    obtain ⟨k1, v1⟩ := p
    by_cases h1 : k1 = k
    · subst h1
      simp [delR, getR, h]
    · simp only [delR, if_neg h1, getR]
      by_cases h2 : k1 = k2 <;> simp [h2, ih]

/-! ## Data model of the main server (src/unnamed/part_014) -/

/-- One whiteboard page: `{ id: Date.now(), imageData: '...' }`. -/
structure Page where
  id : Nat
  imageData : String
  deriving DecidableEq, Repr

/-- Room state: `{ participants, pages }`.  `participants` is `Option Int`
because the `addPage` handler creates rooms as `{ pages: [] }` without a
`participants` field (JS `undefined`, which arithmetic turns into `NaN`). -/
structure Room where
  participants : Option Int
  pages : List Page
  deriving DecidableEq, Repr

/-- The process-wide `rooms` map. -/
def Registry : Type := List (String × Room)

/-- JS `room.participants++` : `undefined`/`NaN` stays `NaN`. -/
def incOpt : Option Int → Option Int
  | none => none
  | some n => some (n + 1)

/-- JS `room.participants--` : `undefined`/`NaN` stays `NaN`. -/
def decOpt : Option Int → Option Int
  | none => none
  | some n => some (n - 1)

/-- JS `room.participants <= 0` : `NaN <= 0` is `false`. -/
def leZeroOpt : Option Int → Bool
  | none => false
  | some n => decide (n ≤ 0)

/-- `validateRoomId`: `typeof roomId === 'string' && roomId.length > 0`. -/
def validateRoomId (roomId : String) : Bool :=
  decide (0 < roomId.length)

/-- `joinRoom` handler: fetch-or-create the room (default: one fresh page with
id `Date.now()`), increment `participants`, store, and emit `roomStatus` with
the updated participant count to the joiner.  Returns the new registry and
the emitted count (`none` when the room id is invalid and only an `error`
event is emitted). -/
def joinH (s : Registry) (roomId : String) (now : Nat) :
    Registry × Option (Option Int) :=
  if validateRoomId roomId then
    let room := (getR s roomId).getD
      { participants := some 0, pages := [{ id := now, imageData := "" }] }
    let room1 := { room with participants := incOpt room.participants }
    (setR s roomId room1, some room1.participants)
  else
    (s, none)

/-- `room.pages.findIndex(p => p.id === data.pageId)` followed by
`room.pages[pageIndex].imageData = data.imageData`: update the first page
with the given id, if any. -/
def updateFirst (pid : Nat) (img : String) : List Page → List Page
  | [] => []
  | p :: r =>
    if p.id = pid then { p with imageData := img } :: r
    else p :: updateFirst pid img r

/-- `addPage` handler: fetch-or-create (`rooms.get(roomId) || { pages: [] }` —
note: no `participants` field on the default), overwrite the preceding page's
snapshot, append one blank page with id `Date.now()`, store, and broadcast
`fullPageUpdate` with the full page list.  The handler contains no `await`
between these steps, so on the single-threaded event loop the mutation is
atomic; the embedding is accordingly one function. -/
def addPageH (s : Registry) (roomId : String) (pid : Nat) (img : String)
    (now : Nat) : Registry × Option (List Page) :=
  if validateRoomId roomId then
    let room := (getR s roomId).getD { participants := none, pages := [] }
    let pages1 := updateFirst pid img room.pages ++ [{ id := now, imageData := "" }]
    let room1 := { room with pages := pages1 }
    (setR s roomId room1, some pages1)
  else
    (s, none)

/-- `removePage` handler: `room.pages = room.pages.filter(p => p.id !== data.pageId)`
followed by a `fullPageUpdate` broadcast.  There is no guard on the length of
the remaining list. -/
def removePageH (s : Registry) (roomId : String) (pid : Nat) :
    Registry × Option (List Page) :=
  if validateRoomId roomId then
    match getR s roomId with
    | some room =>
      let room1 := { room with pages := room.pages.filter (fun p => p.id ≠ pid) }
      (setR s roomId room1, some room1.pages)
    | none => (s, none)
  else
    (s, none)

/-- `requestInitialState` handler: reply `room?.pages || []` to the requester. -/
def requestInitialStateH (s : Registry) (roomId : String) : List Page :=
  ((getR s roomId).map Room.pages).getD []

/-- `updatePageState` handler: `room?.pages?.find(p => p.id === data.pageId)`,
then overwrite that page's `imageData` (first match only); no broadcast. -/
def updatePageH (s : Registry) (roomId : String) (pid : Nat) (img : String) :
    Registry :=
  if validateRoomId roomId then
    match getR s roomId with
    | some room => setR s roomId { room with pages := updateFirst pid img room.pages }
    | none => s
  else
    s

/-- One step of the `disconnect` handler for one room the socket had joined:
`rooms.has(roomId)` then `room.participants--`, delete at `<= 0`, else store. -/
def disconnectRoom (s : Registry) (roomId : String) : Registry :=
  match getR s roomId with
  | some room =>
    let p := decOpt room.participants
    if leZeroOpt p then delR s roomId
    else setR s roomId { room with participants := p }
  | none => s

/-- `disconnect` handler: iterate over every room the socket had joined. -/
def disconnectH (s : Registry) (joined : List String) : Registry :=
  joined.foldl disconnectRoom s

/-! ## The `draw` handler (part_014) -/

/-- Inbound `draw` payload.  `x`, `y`, `page` are raw JS values: `none` models
a non-numeric field (failing `typeof === 'number'`), `some q` a JS number. -/
structure DrawData where
  roomId : String
  x : Option ℚ
  y : Option ℚ
  page : Option ℚ
  isErasing : Bool
  deriving DecidableEq, Repr

/-- `validateDrawData`: `x`, `y`, `page` numeric, `0 <= x <= 640`,
`0 <= y <= 480`, and a valid room id. -/
def validateDrawData (d : DrawData) : Bool :=
  d.x.isSome && d.y.isSome && d.page.isSome &&
    decide (∀ q ∈ d.x, 0 ≤ q ∧ q ≤ 640) &&
    decide (∀ q ∈ d.y, 0 ≤ q ∧ q ≤ 480) &&
    validateRoomId d.roomId

/-- `validatePageIndex`: `pageIndex >= 0 && pageIndex < room.pages.length`. -/
def validatePageIndex (room : Room) (pageIndex : ℚ) : Bool :=
  decide (0 ≤ pageIndex) && decide (pageIndex < (room.pages.length : ℚ))

/-- The relayed `draw` event: the payload spread verbatim plus the resolved
`compositeOperation`, broadcast with `io.to(roomId)` (which includes the
sender). -/
structure DrawOut where
  data : DrawData
  compositeOperation : String
  deriving DecidableEq, Repr

/-- `draw` handler: drop invalid payloads; when the room exists and the page
index validates, relay to all sessions in the room with
`compositeOperation: data.isErasing ? 'destination-out' : 'source-over'`.
The registry is never mutated. -/
def drawH (s : Registry) (d : DrawData) : Registry × Option DrawOut :=
  if validateDrawData d then
    match getR s d.roomId, d.page with
    | some room, some pg =>
      if validatePageIndex room pg then
        (s, some { data := d,
                   compositeOperation :=
                     if d.isErasing then "destination-out" else "source-over" })
      else (s, none)
    | _, _ => (s, none)
  else
    (s, none)

/-! ## The `chatMessage` handler (part_014) -/

/-- Inbound chat payload; the body is a JS string, i.e. a character
sequence. -/
structure ChatMsg where
  roomId : String
  username : String
  message : List Char
  deriving DecidableEq, Repr

/-- The broadcast chat event: the payload with the body truncated by
`message.substring(0, 200)` and a server-assigned `timestamp: Date.now()`. -/
structure ChatOut where
  roomId : String
  username : String
  message : List Char
  timestamp : Nat
  deriving DecidableEq, Repr

/-- `chatMessage` handler: `!msgData?.message` (the empty string is falsy) or
an invalid room id drops the event; otherwise broadcast the truncated body
with the server clock as timestamp. -/
def chatH (m : ChatMsg) (now : Nat) : Option ChatOut :=
  if m.message = [] ∨ validateRoomId m.roomId = false then none
  else some { roomId := m.roomId, username := m.username,
              message := m.message.take 200, timestamp := now }

/-! ## The `processWithAI` handler (part_014), up to the external model call

Strings handled character-wise (`List Char`), since the handler slices the
data-URI payload with `split(',')` and the byte-ceiling check uses
`Buffer.byteLength(..., 'base64')`. -/

/-- JS `str.split(',')` (no limit): split at every comma. -/
def splitOnComma : List Char → List (List Char)
  | [] => [[]]
  | c :: rest =>
    match splitOnComma rest with
    | [] => [[]]
    | h :: t => if c = ',' then [] :: h :: t else (c :: h) :: t

/-- First padding adjustment of Node `Buffer.byteLength(str, 'base64')`:
`if (str.charCodeAt(bytes - 1) === 0x3D) bytes--`. -/
def base64Trim1 (l : List Char) : Nat :=
  if l.get? (l.length - 1) = some '=' then l.length - 1 else l.length

/-- Second padding adjustment:
`if (bytes > 1 && str.charCodeAt(bytes - 1) === 0x3D) bytes--`. -/
def base64Trim2 (l : List Char) : Nat :=
  if 1 < base64Trim1 l ∧ l.get? (base64Trim1 l - 1) = some '=' then
    base64Trim1 l - 1
  else base64Trim1 l

/-- Node `Buffer.byteLength(str, 'base64')`: drop up to two trailing
`'='` padding characters, then `(len * 3) >>> 2`. -/
def base64ByteLength (l : List Char) : Nat :=
  base64Trim2 l * 3 / 4

/-- Where an emitted event goes: `socket.emit` reaches the requesting socket
only, `io.to(roomId).emit` the whole room. -/
inductive Target where
  | sender
  | room
  deriving DecidableEq, Repr

/-- Outcome of the `processWithAI` handler up to (and excluding) the external
model call: either an `aiError` emission (always via `socket.emit`, i.e. to
the sender only) with the message the catch block classifies, or
`modelCall base64 prompt` meaning `model.generateContent` is invoked with
that payload. -/
inductive AiOutcome where
  | aiErr (target : Target) (message : String)
  | modelCall (base64 : List Char) (prompt : String)
  deriving DecidableEq, Repr

/-- Inbound `processWithAI` payload. -/
structure AiData where
  roomId : String
  image : List Char
  prompt : Option String
  deriving DecidableEq, Repr

/-- The `data.prompt || "..."` default prompt. -/
def defaultPrompt : String :=
  "Analyze this drawn math problem and provide step-by-step solution:"

/-- The 4 MiB ceiling: `const maxSize = 4 * 1024 * 1024`. -/
def maxImageSize : Nat := 4 * 1024 * 1024

/-- `processWithAI` up to the external call.  `!data?.image` (empty string is
falsy) or an invalid room id emits `aiError 'Invalid request format'`; a
`split(',')` yielding anything but two parts with a nonempty second part
throws `'Invalid image data format'`, which the catch block classifies (the
message contains `'format'`) as `'Invalid image format'`; a decoded byte
length above 4 MiB throws `'Image too large'`, classified (contains
`'large'`) as `'Image size exceeds 4MB limit'`.  All these `aiError`s are
`socket.emit`, reaching the sender only.  Otherwise `model.generateContent`
is called with the base64 body and `data.prompt || defaultPrompt`. -/
def processWithAIPre (d : AiData) : AiOutcome :=
  if d.image = [] ∨ validateRoomId d.roomId = false then
    .aiErr .sender "Invalid request format"
  else
    match splitOnComma d.image with
    | [_, p1] =>
      if p1 = [] then .aiErr .sender "Invalid image format"
      else if maxImageSize < base64ByteLength p1 then
        .aiErr .sender "Image size exceeds 4MB limit"
      else
        .modelCall p1 (d.prompt.getD defaultPrompt)
    | _ => .aiErr .sender "Invalid image format"

/-! ## The `aiResponse` sanitization chain (part_014)

`text.replace(/\n/g, '<br>').replace(/\*\*/g, '').replace(/\*/g, '')
     .replace(/\\boxed{(.*?)}/g, '$1').replace(/\$/g, '')`
modelled replacement by replacement on `List Char`. -/

/-- `replace(/\n/g, '<br>')`. -/
def replaceNewlines : List Char → List Char
  | [] => []
  | '\n' :: r => '<' :: 'b' :: 'r' :: '>' :: replaceNewlines r
  | c :: r => c :: replaceNewlines r

/-- `replace(/\*\*/g, '')`: left-to-right removal of non-overlapping `**`. -/
def removeDoubleStar : List Char → List Char
  | [] => []
  | '*' :: '*' :: r => removeDoubleStar r
  | c :: r => c :: removeDoubleStar r

/-- `replace(/\*/g, '')`. -/
def removeStar (l : List Char) : List Char :=
  l.filter (fun c => c ≠ '*')

/-- `replace(/\$/g, '')`. -/
def removeDollar (l : List Char) : List Char :=
  l.filter (fun c => c ≠ '$')

/-- The lazy tail of `/\\boxed{(.*?)}/`: index of the first `'}'`, provided
no `'\n'` intervenes (`.` does not match a line terminator). -/
def findClose : List Char → Option Nat
  | [] => none
  | '}' :: _ => some 0
  | '\n' :: _ => none
  | _ :: r => (findClose r).map (· + 1)

theorem findClose_le (l : List Char) (i : Nat) (h : findClose l = some i) :
    i < l.length := by
  induction l generalizing i with
  | nil => simp [findClose] at h
  | cons c r ih =>
    by_cases hc : c = '}'
    · subst hc
      simp [findClose] at h
      simp only [List.length_cons]
      omega
    · by_cases hn : c = '\n'
      · subst hn
        simp [findClose] at h
      · have : findClose (c :: r) = (findClose r).map (· + 1) := by
          cases c <;> simp_all [findClose]
        rw [this] at h
        cases hr : findClose r with
        | none => simp [hr] at h
        | some j =>
          simp [hr] at h
          have := ih j hr
          simp only [List.length_cons]
          omega

/-- `replace(/\\boxed{(.*?)}/g, '$1')`: scan left to right; at a literal
`\boxed{`, a lazy match ends at the first `'}'` (none before a newline), the
whole match is replaced by the capture, and scanning resumes after the match
(the substituted capture is not rescanned); otherwise advance one character. -/
def removeBoxed (l : List Char) : List Char :=
  match l with
  | '\\' :: 'b' :: 'o' :: 'x' :: 'e' :: 'd' :: '{' :: rest =>
    match h : findClose rest with
    | some i => rest.take i ++ removeBoxed (rest.drop (i + 1))
    | none => '\\' :: removeBoxed ('b' :: 'o' :: 'x' :: 'e' :: 'd' :: '{' :: rest)
  | c :: r => c :: removeBoxed r
  | [] => []
termination_by l.length
decreasing_by
  · simp only [List.length_drop, List.length_cons]
    have := findClose_le rest i h
    omega
  · simp only [List.length_cons]
    omega
  · simp only [List.length_cons]
    omega

/-- The whole `aiResponse` post-processing chain, in source order. -/
def sanitize (l : List Char) : List Char :=
  removeDollar (removeBoxed (removeStar (removeDoubleStar (replaceNewlines l))))

/-! ## The dedup-by-userId `joinRoom` variant (src/unnamed/part_015) -/

/-- Room state of the dedup variant:
`{ users: new Set(), count: 0 }`; the JS `Set` of durable user ids is a
`Finset String`. -/
structure DRoom where
  users : Finset String
  count : Nat
  deriving DecidableEq

/-- Dedup `joinRoom` handler: fetch-or-create the room; only when
`!room.users.has(userId)` add the user, set `count = users.size` and store;
in both cases emit the participant count `room.count` to the room.  Returns
the new registry and the emitted count (`none` on an invalid room id, where
only an error is logged). -/
def joinD (s : List (String × DRoom)) (roomId userId : String) :
    List (String × DRoom) × Option Nat :=
  if validateRoomId roomId then
    let room := (getR s roomId).getD { users := ∅, count := 0 }
    if userId ∈ room.users then
      (s, some room.count)
    else
      let users1 := insert userId room.users
      let room1 : DRoom := { users := users1, count := users1.card }
      (setR s roomId room1, some room1.count)
  else
    (s, none)

/-- The reachability invariant of the dedup registry: every stored room's
`count` equals the size of its user set (true initially, preserved by every
handler that touches the map). -/
def DInv (s : List (String × DRoom)) : Prop :=
  ∀ roomId r, getR s roomId = some r → r.count = r.users.card

theorem joinD_preserves_DInv (s : List (String × DRoom)) (roomId userId : String)
    (h : DInv s) : DInv (joinD s roomId userId).1 := by
  unfold joinD
  by_cases hv : validateRoomId roomId
  · simp only [hv, if_true]
    by_cases hm : userId ∈ ((getR s roomId).getD { users := ∅, count := 0 }).users
    · simpa [hm] using h
    · simp only [hm, if_false]
      intro rid r hr
      by_cases he : roomId = rid
      · subst he
        rw [getR_setR_self] at hr
        cases hr
        rfl
      · rw [getR_setR_ne _ _ _ _ he] at hr
        exact h rid r hr
  · simpa [hv] using h

/-! ## Trace semantics of the page-bearing events (part_014)

Every event carries the value of `Date.now()` at the instant the handler runs
where the source reads the clock. -/

/-- The inbound events that can touch a room's page list or its registry
entry. -/
inductive Event where
  | join (roomId : String) (now : Nat)
  | addPage (roomId : String) (pid : Nat) (img : String) (now : Nat)
  | removePage (roomId : String) (pid : Nat)
  | updatePage (roomId : String) (pid : Nat) (img : String)
  | disconnect (joined : List String)
  deriving DecidableEq, Repr

/-- Registry effect of one event (the emissions are dropped here). -/
def stepE (s : Registry) : Event → Registry
  | .join roomId now => (joinH s roomId now).1
  | .addPage roomId pid img now => (addPageH s roomId pid img now).1
  | .removePage roomId pid => (removePageH s roomId pid).1
  | .updatePage roomId pid img => updatePageH s roomId pid img
  | .disconnect joined => disconnectH s joined

/-- Run a trace of events from a registry state. -/
def runFrom (s : Registry) : List Event → Registry
  | [] => s
  | e :: r => runFrom (stepE s e) r

/-- Run a trace from the empty registry (server start). -/
def runTrace (tr : List Event) : Registry :=
  runFrom [] tr

/-- The `Date.now()` reading an event carries, if it reads the clock. -/
def eventNow : Event → Option Nat
  | .join _ now => some now
  | .addPage _ _ _ now => some now
  | _ => none

/-- `ClockOK b tr`: along the trace, every clock reading strictly exceeds the
previous one (and the initial bound `b`) — i.e. no two page creations fall in
the same millisecond and the clock never goes backwards. -/
def ClockOK (b : Nat) : List Event → Prop
  | [] => True
  | e :: r =>
    match eventNow e with
    | some t => b < t ∧ ClockOK t r
    | none => ClockOK b r

/-- The clock bound after a trace: the last reading, or the initial bound. -/
def clockAfter (b : Nat) : List Event → Nat
  | [] => b
  | e :: r =>
    match eventNow e with
    | some t => clockAfter t r
    | none => clockAfter b r

/-! ## Helper lemmas about the page machinery -/

theorem updateFirst_map_id (pid : Nat) (img : String) (l : List Page) :
    (updateFirst pid img l).map Page.id = l.map Page.id := by
  induction l with
  | nil => rfl
  | cons p r ih =>
    by_cases h : p.id = pid <;> simp [updateFirst, h, ih]

theorem updateFirst_mem (pid : Nat) (img : String) (l : List Page)
    (h : pid ∈ l.map Page.id) :
    ∃ p ∈ updateFirst pid img l, p.id = pid ∧ p.imageData = img := by
  induction l with
  | nil => simp at h
  | cons q r ih =>
    by_cases hq : q.id = pid
    · refine ⟨{ q with imageData := img }, ?_, hq, rfl⟩
      simp [updateFirst, hq]
    · simp only [List.map_cons, List.mem_cons] at h
      rcases h with h | h

      · exact absurd h.symm hq
      · obtain ⟨p, hp, hid, himg⟩ := ih h
        exact ⟨p, by simp [updateFirst, hq, hp], hid, himg⟩

/-- The page-id list a client sees for a room (via `requestInitialState`). -/
def pageIds (s : Registry) (roomId : String) : List Nat :=
  (requestInitialStateH s roomId).map Page.id

theorem pageIds_setR_self (s : Registry) (k : String) (room : Room) :
    pageIds (setR s k room) k = room.pages.map Page.id := by
  simp [pageIds, requestInitialStateH, getR_setR_self]

theorem pageIds_setR_ne (s : Registry) (k k2 : String) (room : Room)
    (h : k ≠ k2) : pageIds (setR s k room) k2 = pageIds s k2 := by
  simp [pageIds, requestInitialStateH, getR_setR_ne _ _ _ _ h]

theorem pageIds_delR_ne (s : Registry) (k k2 : String) (h : k ≠ k2) :
    pageIds (delR s k) k2 = pageIds s k2 := by
  simp [pageIds, requestInitialStateH, getR_delR_ne _ _ _ h]

/-- The keys of the registry, in insertion order. -/
def keysR (s : Registry) : List String := s.map Prod.fst

theorem mem_keysR_setR (s : Registry) (k k2 : String) (v : Room)
    (h : k2 ∈ keysR (setR s k v)) : k2 ∈ keysR s ∨ k2 = k := by
  induction s with
  | nil => simpa [keysR, setR] using h
  | cons p r ih =>
    obtain ⟨k1, v1⟩ := p
    by_cases h1 : k1 = k
    · subst h1
      simp [setR, keysR] at h ⊢
      tauto
    · simp [setR, h1, keysR] at h ⊢
      rcases h with h | h
      · tauto
      · rcases ih (by simpa [keysR] using h) with h2 | h2
        · exact Or.inl (Or.inr (by simpa [keysR] using h2))
        · exact Or.inr h2

theorem keysR_nodup_setR (s : Registry) (k : String) (v : Room)
    (h : (keysR s).Nodup) : (keysR (setR s k v)).Nodup := by
  induction s with
  | nil => simp [keysR, setR]
  | cons p r ih =>
    obtain ⟨k1, v1⟩ := p
    simp only [keysR, List.map_cons, List.nodup_cons] at h
    by_cases h1 : k1 = k
    · subst h1
      simpa [setR, keysR, List.nodup_cons] using h
    · simp only [setR, if_neg h1]
      simp only [keysR, List.map_cons, List.nodup_cons]
      refine ⟨fun hm => ?_, ih h.2⟩
      rcases mem_keysR_setR r k k1 v (by simpa [keysR] using hm) with h2 | h2
      · exact h.1 (by simpa [keysR] using h2)
      · exact h1 h2

theorem delR_sublist (s : Registry) (k : String) : (delR s k).Sublist s := by
  induction s with
  | nil => simp [delR]
  | cons p r ih =>
    obtain ⟨k1, v1⟩ := p
    by_cases h1 : k1 = k
    · simp only [delR, if_pos h1]
      exact (List.sublist_cons_self _ _)
    · simp only [delR, if_neg h1]
      exact ih.cons₂ _

theorem keysR_nodup_delR (s : Registry) (k : String)
    (h : (keysR s).Nodup) : (keysR (delR s k)).Nodup := by
  exact ((delR_sublist s k).map Prod.fst).nodup h

theorem getR_delR_self (s : Registry) (k : String)
    (h : (keysR s).Nodup) : getR (delR s k) k = none := by
  induction s with
  | nil => simp [delR, getR]
  | cons p r ih =>
    obtain ⟨k1, v1⟩ := p
    simp only [keysR, List.map_cons, List.nodup_cons] at h
    by_cases h1 : k1 = k
    · subst h1
      simp only [delR, if_pos rfl]
      clear ih
      induction r with
      | nil => simp [getR]
      | cons q t iht =>
        obtain ⟨k2, v2⟩ := q
        simp only [keysR, List.map_cons, List.mem_cons, List.nodup_cons] at h
        have hne : k2 ≠ k1 := fun he => h.1 (Or.inl he.symm)
        simp only [getR, if_neg hne]
        exact iht ⟨fun hm => h.1 (Or.inr hm), h.2.2⟩
    · simp only [delR, if_neg h1, getR, if_neg h1]
      exact ih h.2

theorem pageIds_delR_self (s : Registry) (k : String)
    (h : (keysR s).Nodup) : pageIds (delR s k) k = [] := by
  simp [pageIds, requestInitialStateH, getR_delR_self s k h]

/-! ## Claim C1 — last-page protection -/

/-- A one-page room, used as the C1 failing input. -/
def lastPageRoom : Room :=
  { participants := some 1, pages := [{ id := 7, imageData := "" }] }

/-- **C1** (code bug).  The claim — and the spec's own error-handling design
("removing the last remaining page … rejected … a no-op") — require that
`removePage` on a room with exactly one page leave the page list unchanged.
The handler has no such guard: it unconditionally filters by id.  On a room
holding exactly one page with id 7, `removePage` with pageId 7 broadcasts an
empty `fullPageUpdate` and stores a room with zero pages. -/
theorem removePage_last_page_bug :
    (removePageH [("r", lastPageRoom)] "r" 7).2 = some [] ∧
    getR (removePageH [("r", lastPageRoom)] "r" 7).1 "r"
      = some { participants := some 1, pages := [] } := by
  decide

/-! ## Claim C10 — joining an existing room is frame-preserving -/

/-- **C10** (confirmed).  A `joinRoom` on a room id already present in the
registry leaves that room's page list (ids, order and stored snapshots)
untouched: the stored room differs only in `participants`, which is
incremented (JS `++`; on a numeric count `n` it becomes `n + 1`), and every
other room's entry is untouched. -/
theorem join_existing_room_frame (s : Registry) (roomId : String) (room : Room)
    (now : Nat) (hv : validateRoomId roomId = true)
    (hr : getR s roomId = some room) :
    getR (joinH s roomId now).1 roomId
        = some { room with participants := incOpt room.participants } ∧
    (∀ n, room.participants = some n →
      getR (joinH s roomId now).1 roomId
        = some { room with participants := some (n + 1) }) ∧
    (∀ rid, rid ≠ roomId → getR (joinH s roomId now).1 rid = getR s rid) := by
  refine ⟨?_, ?_, ?_⟩
  · simp [joinH, hv, hr, getR_setR_self]
  · intro n hn
    simp [joinH, hv, hr, getR_setR_self, hn, incOpt]
  · intro rid hne
    simp only [joinH, hv, if_true]
    exact getR_setR_ne _ _ _ _ (Ne.symm hne)

/-- A two-room registry, used as the C10 witness input. -/
def frameReg : Registry :=
  [("r", { participants := some 1, pages := [{ id := 3, imageData := "snap" }] }),
   ("q", { participants := some 4, pages := [{ id := 5, imageData := "" }] })]

/-- Witness for C10: joining room `"r"` (one page, id 3, participant count 1)
again leaves the page intact, bumps the count to 2 and leaves room `"q"`
untouched. -/
theorem join_existing_room_frame_witness :
    getR (joinH frameReg "r" 9).1 "r"
      = some { participants := some 2, pages := [{ id := 3, imageData := "snap" }] } ∧
    getR (joinH frameReg "r" 9).1 "q"
      = some { participants := some 4, pages := [{ id := 5, imageData := "" }] } := by
  have h := join_existing_room_frame frameReg "r"
    { participants := some 1, pages := [{ id := 3, imageData := "snap" }] }
    9 (by decide) (by decide)
  exact ⟨h.2.1 1 rfl, by rw [h.2.2 "q" (by decide)]; decide⟩

/-! ## Claim C3 — addPage updates the preceding snapshot and appends, atomically -/

/-- **C3** (confirmed).  `addPage(roomId, precedingPageId, imageData)` on an
existing room replaces the first page carrying `precedingPageId` with the
supplied snapshot and appends one blank page at the end, in one handler
activation with no suspension point, so every `requestInitialState` served
after it returns exactly that list: it ends with the new blank page, contains
a page with the preceding id carrying the new snapshot, and is also the very
list broadcast as `fullPageUpdate`. -/
theorem addPage_atomic (s : Registry) (roomId : String) (room : Room)
    (pid : Nat) (img : String) (now : Nat)
    (hv : validateRoomId roomId = true)
    (hr : getR s roomId = some room)
    (hp : pid ∈ room.pages.map Page.id) :
    requestInitialStateH (addPageH s roomId pid img now).1 roomId
        = updateFirst pid img room.pages ++ [{ id := now, imageData := "" }] ∧
    (requestInitialStateH (addPageH s roomId pid img now).1 roomId).getLast?
        = some { id := now, imageData := "" } ∧
    (∃ p ∈ requestInitialStateH (addPageH s roomId pid img now).1 roomId,
      p.id = pid ∧ p.imageData = img) ∧
    (addPageH s roomId pid img now).2
        = some (requestInitialStateH (addPageH s roomId pid img now).1 roomId) := by
  have hmain :
      requestInitialStateH (addPageH s roomId pid img now).1 roomId
        = updateFirst pid img room.pages ++ [{ id := now, imageData := "" }] := by
    simp [addPageH, hv, hr, requestInitialStateH, getR_setR_self]
  refine ⟨hmain, ?_, ?_, ?_⟩
  · rw [hmain]
    simp
  · rw [hmain]
    obtain ⟨p, hpm, hid, himg⟩ := updateFirst_mem pid img room.pages hp
    exact ⟨p, List.mem_append_left _ hpm, hid, himg⟩
  · rw [hmain]
    simp [addPageH, hv, hr]

/-- A one-room registry with one blank page, used as the C3 witness input. -/
def addPageReg : Registry :=
  [("r", { participants := some 1, pages := [{ id := 3, imageData := "" }] })]

/-- Witness for C3: adding a page to room `"r"` (one page, id 3) with a
snapshot for page 3 yields the two-page list `[{3, "snap"}, {9, ""}]` as both
the broadcast and the subsequently served initial state. -/
theorem addPage_atomic_witness :
    requestInitialStateH (addPageH addPageReg "r" 3 "snap" 9).1 "r"
      = [{ id := 3, imageData := "snap" }, { id := 9, imageData := "" }] ∧
    (∃ p ∈ requestInitialStateH (addPageH addPageReg "r" 3 "snap" 9).1 "r",
      p.id = 3 ∧ p.imageData = "snap") := by
  have h := addPage_atomic addPageReg "r"
    { participants := some 1, pages := [{ id := 3, imageData := "" }] }
    3 "snap" 9 (by decide) (by decide) (by decide)
  refine ⟨?_, h.2.2.1⟩
  rw [h.1]
  decide

/-! ## Claim C2 — dedup join is idempotent per durable user id -/

/-- **C2** (confirmed, for the dedup-by-userId `joinRoom` handler of
part_015, which is the variant that takes a durable user id; the spec's §9
designates it as the intended behaviour).  On any registry satisfying the
reachability invariant `DInv` (participant count = size of the user-id set,
preserved by the handler and true of the empty registry), a second
`joinRoom` with the same durable user id changes nothing — same stored
registry, same broadcast participant count — and the broadcast count equals
the number of distinct user ids recorded for the room, so it never exceeds
it. -/
theorem joinRoom_dedup_idempotent (s : List (String × DRoom))
    (roomId userId : String) (hI : DInv s)
    (hv : validateRoomId roomId = true) :
    joinD (joinD s roomId userId).1 roomId userId
        = ((joinD s roomId userId).1, (joinD s roomId userId).2) ∧
    (∃ r, getR (joinD s roomId userId).1 roomId = some r ∧
      (joinD s roomId userId).2 = some r.users.card) := by
  by_cases hm : userId ∈ ((getR s roomId).getD { users := ∅, count := 0 }).users
  · have hstep : joinD s roomId userId
        = (s, some ((getR s roomId).getD { users := ∅, count := 0 }).count) := by
      simp [joinD, hv, hm]
    have hex : ∃ r0, getR s roomId = some r0 := by
      cases hg : getR s roomId with
      | some r0 => exact ⟨r0, rfl⟩
      | none =>
        rw [hg] at hm
        simp at hm
    obtain ⟨r0, hr0⟩ := hex
    refine ⟨?_, ⟨r0, ?_, ?_⟩⟩
    · rw [hstep]
      simp [hstep]
    · rw [hstep]
      exact hr0
    · rw [hstep]
      rw [hr0] at hm ⊢
      simp only [Option.getD_some]
      rw [hI roomId r0 hr0]
  · have hstep : joinD s roomId userId
        = (setR s roomId
            { users := insert userId ((getR s roomId).getD { users := ∅, count := 0 }).users,
              count := (insert userId ((getR s roomId).getD { users := ∅, count := 0 }).users).card },
           some (insert userId ((getR s roomId).getD { users := ∅, count := 0 }).users).card) := by
      simp [joinD, hv, hm]
    rw [hstep]
    have hget : getR (setR s roomId
        { users := insert userId ((getR s roomId).getD { users := ∅, count := 0 }).users,
          count := (insert userId ((getR s roomId).getD { users := ∅, count := 0 }).users).card })
        roomId
        = some { users := insert userId ((getR s roomId).getD { users := ∅, count := 0 }).users,
                 count := (insert userId ((getR s roomId).getD { users := ∅, count := 0 }).users).card } :=
      getR_setR_self _ _ _
    constructor
    · simp [joinD, hv, hget, Finset.mem_insert]
    · exact ⟨_, hget, rfl⟩

/-- Witness for C2: on the empty registry, user `"u"` joining room `"r"`
twice broadcasts count 1 both times and leaves the registry as after the
first join. -/
theorem joinRoom_dedup_idempotent_witness :
    joinD (joinD [] "r" "u").1 "r" "u"
        = ((joinD [] "r" "u").1, (joinD [] "r" "u").2) ∧
    (∃ r, getR (joinD [] "r" "u").1 "r" = some r ∧
      (joinD [] "r" "u").2 = some r.users.card) := by
  exact joinRoom_dedup_idempotent [] "r" "u"
    (fun rid r h => by simp [getR] at h) (by decide)

/-! ## Claim C6 — draw validation and relay -/

/-- A draw payload with in-bounds numeric coordinates but page index 5. -/
def drawPage5 : DrawData :=
  { roomId := "r", x := some 10, y := some 10, page := some 5, isErasing := false }

/-- Counterexample to C6 as stated: a draw event whose `x`, `y` are numeric
and inside `[0,640] × [0,480]` (so, by the claim, "otherwise it is relayed")
is nevertheless dropped, because its page index 5 is outside the one-page
room's page list and `validatePageIndex` fails. -/
theorem draw_out_of_range_page_counterexample :
    validateDrawData drawPage5 = true ∧
    (drawH [("r", lastPageRoom)] drawPage5).2 = none := by
  decide

/-- **C6** (corrected).  The draw handler never mutates the registry; a
payload with a non-numeric or out-of-bounds `x`/`y` (or non-numeric `page`,
or invalid room id) fails `validateDrawData` and is dropped with no broadcast
and no clamping; and a payload passing validation is relayed — annotated
with `compositeOperation` `destination-out` when `isErasing` is set and
`source-over` otherwise — only provided the room exists in the registry and
the page index lies inside its page list (`validatePageIndex`); otherwise it
too is silently dropped. -/
theorem draw_validation_relay (s : Registry) (d : DrawData) :
    (drawH s d).1 = s ∧
    (validateDrawData d = false → (drawH s d).2 = none) ∧
    (∀ room pg, validateDrawData d = true → getR s d.roomId = some room →
      d.page = some pg → validatePageIndex room pg = true →
      (drawH s d).2
        = some ⟨d, if d.isErasing then "destination-out" else "source-over"⟩) ∧
    (∀ room pg, validateDrawData d = true → getR s d.roomId = some room →
      d.page = some pg → validatePageIndex room pg = false →
      (drawH s d).2 = none) ∧
    (validateDrawData d = true → getR s d.roomId = none →
      (drawH s d).2 = none) := by
  refine ⟨?_, ?_, ?_, ?_, ?_⟩
  · unfold drawH
    by_cases hv : validateDrawData d
    · simp only [hv, if_true]
      rcases getR s d.roomId with _ | room <;> rcases d.page with _ | pg <;> simp
      by_cases hp : validatePageIndex room pg <;> simp [hp]
    · simp [hv]
  · intro hv
    simp [drawH, hv]
  · intro room pg hv hr hpg hp
    simp [drawH, hv, hr, hpg, hp]
  · intro room pg hv hr hpg hp
    simp [drawH, hv, hr, hpg, hp]
  · intro hv hr
    rcases hpg : d.page with _ | pg <;> simp [drawH, hv, hr, hpg]

/-- An erase stroke at (10, 10) on page 0. -/
def drawErase0 : DrawData :=
  { roomId := "r", x := some 10, y := some 10, page := some 0, isErasing := true }

/-- A draw payload whose `x` is out of bounds (641 > 640). -/
def drawBadX : DrawData :=
  { roomId := "r", x := some 641, y := some 10, page := some 0, isErasing := false }

/-- Witness for C6: on the one-page room, the out-of-bounds payload is
dropped with the registry untouched, and the valid erase payload is relayed
annotated `destination-out`. -/
theorem draw_validation_relay_witness :
    (drawH [("r", lastPageRoom)] drawBadX).1 = [("r", lastPageRoom)] ∧
    (drawH [("r", lastPageRoom)] drawBadX).2 = none ∧
    (drawH [("r", lastPageRoom)] drawErase0).2
      = some { data := drawErase0, compositeOperation := "destination-out" } := by
  refine ⟨(draw_validation_relay [("r", lastPageRoom)] drawBadX).1,
    (draw_validation_relay [("r", lastPageRoom)] drawBadX).2.1 (by decide), ?_⟩
  have h := (draw_validation_relay [("r", lastPageRoom)] drawErase0).2.2.1
    lastPageRoom 0 (by decide) (by decide) (by decide) (by decide)
  simpa using h

/-! ## Claim C8 — chat truncation and timestamps -/

/-- Counterexample to C8 as stated: two consecutive `chatMessage`s in room
`"r"` handled while `Date.now()` still reads 5 (the clock has millisecond
resolution) are both broadcast with timestamp 5, so the second broadcast's
timestamp is not strictly greater than the previous one's. -/
theorem chat_timestamp_not_strict_counterexample :
    (chatH { roomId := "r", username := "a", message := ['h', 'i'] } 5).map
        ChatOut.timestamp = some 5 ∧
    (chatH { roomId := "r", username := "b", message := ['y', 'o'] } 5).map
        ChatOut.timestamp = some 5 ∧
    ¬ (5 : Nat) < 5 := by
  decide

/-- **C8** (corrected).  A `chatMessage` whose body exceeds 200 characters is
broadcast with its 200-character prefix as body and the server clock reading
as timestamp; the timestamp of a later broadcast is strictly greater than an
earlier one's exactly when the server clock advanced between them —
`Date.now()` gives millisecond resolution, so two messages handled in the
same millisecond carry equal timestamps. -/
theorem chat_truncation_timestamp (m m2 : ChatMsg) (now now2 : Nat)
    (hmsg : m.message ≠ []) (hv : validateRoomId m.roomId = true)
    (hlong : 200 < m.message.length) :
    chatH m now = some { roomId := m.roomId, username := m.username,
                         message := m.message.take 200, timestamp := now } ∧
    (m.message.take 200).length = 200 ∧
    (∀ o1 o2, now < now2 → chatH m now = some o1 → chatH m2 now2 = some o2 →
      o1.timestamp < o2.timestamp) := by
  refine ⟨?_, ?_, ?_⟩
  · simp [chatH, hmsg, hv]
  · simp [List.length_take]
    omega
  · intro o1 o2 hlt h1 h2
    have e1 : o1.timestamp = now := by
      simp [chatH, hmsg, hv] at h1
      rw [← h1]
    have e2 : o2.timestamp = now2 := by
      by_cases hd : m2.message = [] ∨ validateRoomId m2.roomId = false
      · simp [chatH, hd] at h2
      · simp [chatH, hd] at h2
        rw [← h2]
    rw [e1, e2]
    exact hlt

theorem replicate_ne_nil_of_pos {α : Type} (a : α) (n : Nat) (h : 0 < n) :
    List.replicate n a ≠ [] := by
  intro hc
  have := congrArg List.length hc
  simp at this
  omega

theorem take_replicate_of_le {α : Type} (a : α) (n m : Nat) (h : n ≤ m) :
    (List.replicate m a).take n = List.replicate n a := by
  induction n generalizing m with
  | zero => simp
  | succ k ih =>
    cases m with
    | zero => omega
    | succ m2 =>
      simp only [List.replicate, List.take]
      rw [ih m2 (by omega)]

/-- Witness for C8: a 500-character body (500 copies of `x`) is broadcast
truncated to its 200-character prefix with the current clock (7) as
timestamp, and a follow-up message at clock 8 gets a strictly greater
timestamp. -/
theorem chat_truncation_timestamp_witness :
    chatH { roomId := "r", username := "a", message := List.replicate 500 'x' } 7
      = some { roomId := "r", username := "a",
               message := List.replicate 200 'x', timestamp := 7 } ∧
    (∀ o1 o2,
      chatH { roomId := "r", username := "a", message := List.replicate 500 'x' } 7
        = some o1 →
      chatH { roomId := "r", username := "b", message := ['y', 'o'] } 8 = some o2 →
      o1.timestamp < o2.timestamp) := by
  have h := chat_truncation_timestamp
    { roomId := "r", username := "a", message := List.replicate 500 'x' }
    { roomId := "r", username := "b", message := ['y', 'o'] } 7 8
    (replicate_ne_nil_of_pos 'x' 500 (by omega)) (by decide)
    (by rw [List.length_replicate]; omega)
  constructor
  · rw [h.1]
    rw [take_replicate_of_le 'x' 200 500 (by omega)]
  · intro o1 o2 h1 h2
    exact h.2.2 o1 o2 (by omega) h1 h2

/-! ## Claim C7 — AI payload bounds -/

/-- Counterexample to C7 as stated: a well-formed data-URI payload whose
base64 body decodes to a single byte — below any minimum content threshold —
does not produce an `aiError` (too simple); the handler has no such check
and proceeds straight to the external `generateContent` call. -/
theorem ai_no_min_content_counterexample :
    processWithAIPre
        { roomId := "r", image := ['d', ',', 'A', 'A', '=', '='], prompt := none }
      = .modelCall ['A', 'A', '=', '='] defaultPrompt ∧
    base64ByteLength ['A', 'A', '=', '='] = 1 := by
  decide

/-- **C7** (corrected).  A `processWithAI` payload that splits into a header
and a nonempty base64 body whose decoded byte length exceeds the 4 MiB
ceiling is answered with `aiError 'Image size exceeds 4MB limit'` — emitted
with `socket.emit`, i.e. to the requesting socket only, not to the whole
room — and the external model is never called; there is no minimum-content
check, so any within-ceiling well-formed payload reaches the external
call. -/
theorem ai_oversized_rejected (d : AiData) (p0 p1 : List Char)
    (himg : d.image ≠ []) (hv : validateRoomId d.roomId = true)
    (hsplit : splitOnComma d.image = [p0, p1]) (hne : p1 ≠ [])
    (hbig : maxImageSize < base64ByteLength p1) :
    processWithAIPre d = .aiErr .sender "Image size exceeds 4MB limit" := by
  simp [processWithAIPre, himg, hv, hsplit, hne, hbig]

theorem get_replicate_of_lt {α : Type} (a : α) (n i : Nat) (h : i < n) :
    (List.replicate n a).get? i = some a := by
  induction n generalizing i with
  | zero => omega
  | succ m ih =>
    cases i with
    | zero => simp [List.replicate]
    | succ j =>
      simp only [List.replicate, List.get?]
      exact ih j (by omega)

theorem splitOnComma_of_no_comma (l : List Char) (h : ',' ∉ l) :
    splitOnComma l = [l] := by
  induction l with
  | nil => rfl
  | cons c r ih =>
    simp only [List.mem_cons, not_or] at h
    have hr := ih h.2
    have hc : c ≠ ',' := fun he => h.1 he.symm
    simp [splitOnComma, hr, hc]

theorem base64ByteLength_replicate_A (n : Nat) (h : 0 < n) :
    base64ByteLength (List.replicate n 'A') = n * 3 / 4 := by
  have hget : (List.replicate n 'A').get? (n - 1) = some 'A' :=
    get_replicate_of_lt 'A' n (n - 1) (by omega)
  have h1 : base64Trim1 (List.replicate n 'A') = n := by
    rw [base64Trim1, List.length_replicate, hget]
    simp
  have h2 : base64Trim2 (List.replicate n 'A') = n := by
    rw [base64Trim2, h1, hget]
    simp
  rw [base64ByteLength, h2]

/-- The base64 body of the C7 witness payload: seven million `A`s, decoding
to 5250000 bytes (a bit over 5 MiB = 5242880). -/
def bigBody : List Char := List.replicate 7000000 'A'

/-- Witness for C7: the payload `","` followed by seven million `A`s splits
into an empty header and the 5.25 MB body, and is rejected sender-side as
oversized with no model call. -/
theorem ai_oversized_rejected_witness :
    processWithAIPre { roomId := "r", image := ',' :: bigBody, prompt := none }
      = .aiErr .sender "Image size exceeds 4MB limit" := by
  have hnc : ',' ∉ bigBody := by
    intro hm
    rw [bigBody] at hm
    exact absurd (List.eq_of_mem_replicate hm) (by decide)
  have hsplit : splitOnComma (',' :: bigBody) = [[], bigBody] := by
    rw [splitOnComma]
    rw [splitOnComma_of_no_comma bigBody hnc]
    simp
  have himg : (',' :: bigBody) ≠ [] := by simp
  have hv : validateRoomId "r" = true := by decide
  have hne : bigBody ≠ [] := by
    rw [bigBody]
    exact replicate_ne_nil_of_pos 'A' 7000000 (by omega)
  have hbig : maxImageSize < base64ByteLength bigBody := by
    rw [bigBody, base64ByteLength_replicate_A 7000000 (by omega), maxImageSize]
    omega
  exact ai_oversized_rejected
    { roomId := "r", image := ',' :: bigBody, prompt := none }
    [] bigBody himg hv hsplit hne hbig

/-! ## Claim C9 — sanitization idempotence -/

theorem newline_not_mem_replaceNewlines (l : List Char) :
    '\n' ∉ replaceNewlines l := by
  induction l using replaceNewlines.induct with
  | case1 => simp [replaceNewlines]
  | case2 r ih => simp [replaceNewlines, ih]
  | case3 c r hc ih =>
    simp [replaceNewlines, hc, ih]
    exact fun he => hc he.symm

theorem replaceNewlines_eq_self (l : List Char) (h : '\n' ∉ l) :
    replaceNewlines l = l := by
  induction l using replaceNewlines.induct with
  | case1 => rfl
  | case2 r ih => simp at h
  | case3 c r hc ih =>
    simp only [List.mem_cons, not_or] at h
    simp [replaceNewlines, hc, ih h.2]

theorem mem_removeDoubleStar (l : List Char) (c : Char)
    (h : c ∈ removeDoubleStar l) : c ∈ l := by
  induction l using removeDoubleStar.induct with
  | case1 => simpa [removeDoubleStar] using h
  | case2 r ih =>
    simp only [removeDoubleStar] at h
    simp [ih h]
  | case3 c1 r hne ih =>
    simp only [removeDoubleStar, hne] at h
    rcases List.mem_cons.mp h with h1 | h1
    · simp [h1]
    · simp [ih h1]

theorem removeDoubleStar_eq_self (l : List Char) (h : '*' ∉ l) :
    removeDoubleStar l = l := by
  induction l using removeDoubleStar.induct with
  | case1 => rfl
  | case2 r ih => simp at h
  | case3 c1 r hne ih =>
    simp only [List.mem_cons, not_or] at h
    simp only [removeDoubleStar, hne]
    rw [ih h.2]

/-- Unfolding equation for `removeBoxed` at a `\boxed{` head with a closing
brace. -/
theorem removeBoxed_boxed_some (rest : List Char) (i : Nat)
    (hfc : findClose rest = some i) :
    removeBoxed ('\\' :: 'b' :: 'o' :: 'x' :: 'e' :: 'd' :: '{' :: rest)
      = rest.take i ++ removeBoxed (rest.drop (i + 1)) := by
  rw [removeBoxed.eq_def]
  split
  · rename_i rest2 heq
    simp only [List.cons.injEq, true_and] at heq
    subst heq
    split
    · rename_i i2 hfc2
      rw [hfc] at hfc2
      injection hfc2 with hii
      rw [hii]
    · rename_i hfc2
      rw [hfc] at hfc2
      exact absurd hfc2 (by simp)
  · rename_i hshape heq
    injection heq with h1 h2
    exact (hshape rest h1.symm h2.symm).elim
  · rename_i heq
    exact absurd heq (by simp)

/-- Unfolding equation for `removeBoxed` at a `\boxed{` head with no closing
brace: no match at this position, the scan advances one character. -/
theorem removeBoxed_boxed_none (rest : List Char)
    (hfc : findClose rest = none) :
    removeBoxed ('\\' :: 'b' :: 'o' :: 'x' :: 'e' :: 'd' :: '{' :: rest)
      = '\\' :: removeBoxed ('b' :: 'o' :: 'x' :: 'e' :: 'd' :: '{' :: rest) := by
  rw [removeBoxed.eq_def]
  split
  · rename_i rest2 heq
    simp only [List.cons.injEq, true_and] at heq
    subst heq
    split
    · rename_i i2 hfc2
      rw [hfc] at hfc2
      exact absurd hfc2 (by simp)
    · rfl
  · rename_i hshape heq
    injection heq with h1 h2
    exact (hshape rest h1.symm h2.symm).elim
  · rename_i heq
    exact absurd heq (by simp)

/-- Unfolding equation for `removeBoxed` away from a `\boxed{` head. -/
theorem removeBoxed_cons_of_not_boxed (c : Char) (r : List Char)
    (h : ∀ rest, c = '\\' → r = 'b' :: 'o' :: 'x' :: 'e' :: 'd' :: '{' :: rest → False) :
    removeBoxed (c :: r) = c :: removeBoxed r := by
  rw [removeBoxed.eq_def]
  split
  · rename_i rest heq
    injection heq with h1 h2
    exact (h rest h1 h2).elim
  · rename_i c2 r2 heq
    injection heq with h1 h2
    rw [h1, h2]
  · rename_i heq
    exact absurd heq (by simp)

theorem mem_removeBoxed (l : List Char) (c : Char)
    (h : c ∈ removeBoxed l) : c ∈ l := by
  induction l using removeBoxed.induct with
  | case1 rest i hfc ih =>
    rw [removeBoxed_boxed_some rest i hfc] at h
    rcases List.mem_append.mp h with h1 | h1
    · have := List.take_subset i rest h1
      simp [this]
    · have := List.drop_subset (i + 1) rest (ih h1)
      simp [this]
  | case2 rest hfc ih =>
    rw [removeBoxed_boxed_none rest hfc] at h
    rcases List.mem_cons.mp h with h1 | h1
    · simp [h1]
    · have := ih h1
      simp only [List.mem_cons] at this ⊢
      tauto
  | case3 c1 r hshape ih =>
    rw [removeBoxed_cons_of_not_boxed c1 r hshape] at h
    rcases List.mem_cons.mp h with h1 | h1
    · simp [h1]
    · simp [ih h1]
  | case4 => simp [removeBoxed] at h

theorem star_not_mem_sanitize (l : List Char) : '*' ∉ sanitize l := by
  intro hm
  have h1 : '*' ∈ removeBoxed (removeStar (removeDoubleStar (replaceNewlines l))) :=
    List.mem_of_mem_filter hm
  have h2 := mem_removeBoxed _ _ h1
  rw [removeStar] at h2
  have h3 := (List.mem_filter.mp h2).2
  simp at h3

theorem dollar_not_mem_sanitize (l : List Char) : '$' ∉ sanitize l := by
  intro hm
  rw [sanitize, removeDollar] at hm
  have h3 := (List.mem_filter.mp hm).2
  simp at h3

theorem newline_not_mem_sanitize (l : List Char) : '\n' ∉ sanitize l := by
  intro hm
  have h1 : '\n' ∈ removeBoxed (removeStar (removeDoubleStar (replaceNewlines l))) :=
    List.mem_of_mem_filter hm
  have h2 := mem_removeBoxed _ _ h1
  rw [removeStar] at h2
  have h3 := (List.mem_filter.mp h2).1
  have h4 := mem_removeDoubleStar _ _ h3
  exact newline_not_mem_replaceNewlines l h4

theorem removeStar_eq_self (l : List Char) (h : '*' ∉ l) :
    removeStar l = l := by
  rw [removeStar]
  apply List.filter_eq_self.mpr
  intro a ha
  simp only [ne_eq, decide_eq_true_eq]
  intro he
  exact h (he ▸ ha)

theorem removeDollar_eq_self (l : List Char) (h : '$' ∉ l) :
    removeDollar l = l := by
  rw [removeDollar]
  apply List.filter_eq_self.mpr
  intro a ha
  simp only [ne_eq, decide_eq_true_eq]
  intro he
  exact h (he ▸ ha)

/-- **C9** (corrected).  The sanitization chain is a pure function of its
input (deterministic by construction), and it is idempotent on every input
whose one-pass result contains no residual `\boxed{…}` occurrence (in
particular on already-clean text): a sanitized string contains no `\n`, no
`*` and no `$`, so in a second pass only the `\boxed` rewrite could act, and
by hypothesis it does not.  Nested boxed notation defeats idempotence (see
the counterexample). -/
theorem sanitize_idempotent_on_unboxed (l : List Char)
    (h : removeBoxed (sanitize l) = sanitize l) :
    sanitize (sanitize l) = sanitize l := by
  have h1 : replaceNewlines (sanitize l) = sanitize l :=
    replaceNewlines_eq_self _ (newline_not_mem_sanitize l)
  have h2 : removeDoubleStar (sanitize l) = sanitize l :=
    removeDoubleStar_eq_self _ (star_not_mem_sanitize l)
  have h3 : removeStar (sanitize l) = sanitize l :=
    removeStar_eq_self _ (star_not_mem_sanitize l)
  have h5 : removeDollar (sanitize l) = sanitize l :=
    removeDollar_eq_self _ (dollar_not_mem_sanitize l)
  calc sanitize (sanitize l)
      = removeDollar (removeBoxed (removeStar (removeDoubleStar
          (replaceNewlines (sanitize l))))) := rfl
    _ = removeDollar (removeBoxed (sanitize l)) := by rw [h1, h2, h3]
    _ = removeDollar (sanitize l) := by rw [h]
    _ = sanitize l := h5

/-- The nested input `\boxed{\boxed{a}}` on which sanitization is not
idempotent: one pass yields `\boxed{a}` (the lazy regex match stops at the
first `}`), a second pass yields `a`. -/
def nestedBoxed : List Char :=
  ['\\', 'b', 'o', 'x', 'e', 'd', '{', '\\', 'b', 'o', 'x', 'e', 'd', '{', 'a', '}', '}']

/-- Counterexample to C9 as stated: sanitization is not idempotent on
`\boxed{\boxed{a}}` — the first pass leaves `\boxed{a}`, which the second
pass rewrites to `a`. -/
theorem sanitize_not_idempotent_counterexample :
    sanitize (sanitize nestedBoxed) ≠ sanitize nestedBoxed := by
  have h1 : sanitize nestedBoxed
      = ['\\', 'b', 'o', 'x', 'e', 'd', '{', 'a', '}'] := by
    simp [nestedBoxed, sanitize, removeBoxed, replaceNewlines, removeDoubleStar,
      removeStar, removeDollar, findClose]
  have h2 : sanitize ['\\', 'b', 'o', 'x', 'e', 'd', '{', 'a', '}'] = ['a'] := by
    simp [sanitize, removeBoxed, replaceNewlines, removeDoubleStar,
      removeStar, removeDollar, findClose]
  rw [h1, h2]
  decide

/-- Witness for C9: on the boxed-free text `hi*$` the one-pass result is
`\boxed`-free, and a second sanitization pass changes nothing. -/
theorem sanitize_idempotent_on_unboxed_witness :
    sanitize (sanitize ['h', 'i', '*', '$']) = sanitize ['h', 'i', '*', '$'] := by
  apply sanitize_idempotent_on_unboxed
  simp [sanitize, removeBoxed, replaceNewlines, removeDoubleStar,
    removeStar, removeDollar, findClose]

/-! ## Claim C5 — room lifecycle -/

/-- **C5** (code bug).  The `disconnect` handler does delete a room once the
participant count it decremented reaches zero (second conjunct: a plain
join-then-disconnect removes the entry).  But the `addPage` handler creates
a registry entry `{ pages: [] }` with *no* `participants` field; a later
`joinRoom` turns that `undefined` into `NaN` (`undefined + 1`), and on
disconnect `NaN <= 0` is `false`, so the entry survives the departure of its
last (only) session forever — the registry retains a room with zero live
participants, and a later join reuses it instead of creating a fresh
one-page room (first conjunct: the room is still there, `participants`
`none`, after its only session disconnected). -/
theorem room_retained_after_last_disconnect_bug :
    getR (runTrace [.addPage "r" 0 "" 50, .join "r" 100, .disconnect ["r"]]) "r"
      = some { participants := none, pages := [{ id := 50, imageData := "" }] } ∧
    getR (runTrace [.join "r" 100, .disconnect ["r"]]) "r" = none := by
  decide

/-! ## Claim C4 — page-id uniqueness, insertion order, no reappearing ids -/

/-- Counterexample to C4 as stated: `Date.now()` is the only id source, so a
`joinRoom` and an `addPage` landing in the same millisecond (clock reading
100 both times) produce a room whose page list carries the duplicate ids
`[100, 100]`. -/
theorem page_ids_duplicate_counterexample :
    (requestInitialStateH (runTrace [.join "r" 100, .addPage "r" 0 "" 100]) "r").map
        Page.id = [100, 100] ∧
    ¬ ((requestInitialStateH (runTrace [.join "r" 100, .addPage "r" 0 "" 100]) "r").map
        Page.id).Nodup := by
  decide

/-- The registry invariant carried along a trace whose clock readings are
bounded by `b`: registry keys are unique (as in a JS `Map`), and every
room's page-id list is strictly increasing (ids are creation timestamps, so
this is creation order) with all ids at most `b`. -/
def GoodState (b : Nat) (s : Registry) : Prop :=
  (keysR s).Nodup ∧
  ∀ rid, (pageIds s rid).Pairwise (· < ·) ∧ ∀ i ∈ pageIds s rid, i ≤ b

theorem GoodState_nil (b : Nat) : GoodState b [] := by
  refine ⟨by simp [keysR], fun rid => ⟨?_, ?_⟩⟩
  · simp [pageIds, requestInitialStateH, getR]
  · simp [pageIds, requestInitialStateH, getR]

theorem GoodState_mono (b b2 : Nat) (s : Registry) (hg : GoodState b s)
    (hle : b ≤ b2) : GoodState b2 s :=
  ⟨hg.1, fun rid => ⟨(hg.2 rid).1, fun i hi => le_trans ((hg.2 rid).2 i hi) hle⟩⟩

theorem pageIds_eq_of_getR (s : Registry) (rid : String) (room : Room)
    (h : getR s rid = some room) : pageIds s rid = room.pages.map Page.id := by
  simp [pageIds, requestInitialStateH, h]

theorem pageIds_eq_nil_of_getR (s : Registry) (rid : String)
    (h : getR s rid = none) : pageIds s rid = [] := by
  simp [pageIds, requestInitialStateH, h]

/-- Appending one id strictly above the bound preserves sortedness. -/
theorem pairwise_append_big (ids : List Nat) (b now : Nat)
    (hs : ids.Pairwise (· < ·)) (hb : ∀ i ∈ ids, i ≤ b) (hlt : b < now) :
    (ids ++ [now]).Pairwise (· < ·) := by
  rw [List.pairwise_append]
  refine ⟨hs, by simp, fun a ha c hc => ?_⟩
  simp only [List.mem_singleton] at hc
  subst hc
  exact lt_of_le_of_lt (hb a ha) hlt

theorem joinH_good (b now : Nat) (s : Registry) (rid : String)
    (hg : GoodState b s) (hlt : b < now) :
    GoodState now (joinH s rid now).1 := by
  by_cases hv : validateRoomId rid
  · cases hr : getR s rid with
    | some room =>
      have hpg := hg.2 rid
      rw [pageIds_eq_of_getR s rid room hr] at hpg
      refine ⟨?_, fun rid2 => ?_⟩
      · simp only [joinH, hv, if_true, hr]
        exact keysR_nodup_setR s rid _ hg.1
      · by_cases he : rid = rid2
        · subst he
          have hset : pageIds (joinH s rid now).1 rid = room.pages.map Page.id := by
            simp [joinH, hv, hr, pageIds_setR_self]
          rw [hset]
          exact ⟨hpg.1, fun i hi => le_trans (hpg.2 i hi) (le_of_lt hlt)⟩
        · have hset : pageIds (joinH s rid now).1 rid2 = pageIds s rid2 := by
            simp only [joinH, hv, if_true, hr]
            exact pageIds_setR_ne s rid rid2 _ he
          rw [hset]
          exact ⟨(hg.2 rid2).1,
            fun i hi => le_trans ((hg.2 rid2).2 i hi) (le_of_lt hlt)⟩
    | none =>
      refine ⟨?_, fun rid2 => ?_⟩
      · simp only [joinH, hv, if_true, hr]
        exact keysR_nodup_setR s rid _ hg.1
      · by_cases he : rid = rid2
        · subst he
          have hset : pageIds (joinH s rid now).1 rid
              = [({ id := now, imageData := "" } : Page)].map Page.id := by
            simp [joinH, hv, hr, pageIds_setR_self]
          rw [hset]
          simp
        · have hset : pageIds (joinH s rid now).1 rid2 = pageIds s rid2 := by
            simp only [joinH, hv, if_true, hr]
            exact pageIds_setR_ne s rid rid2 _ he
          rw [hset]
          exact ⟨(hg.2 rid2).1,
            fun i hi => le_trans ((hg.2 rid2).2 i hi) (le_of_lt hlt)⟩
  · simp only [joinH, hv, if_false]
    exact GoodState_mono b now s hg (le_of_lt hlt)

theorem addPageH_good (b now : Nat) (s : Registry) (rid : String)
    (pid : Nat) (img : String) (hg : GoodState b s) (hlt : b < now) :
    GoodState now (addPageH s rid pid img now).1 := by
  by_cases hv : validateRoomId rid
  · have hids : ∀ room : Room, (getR s rid).getD { participants := none, pages := [] } = room →
        ((updateFirst pid img room.pages ++ [({ id := now, imageData := "" } : Page)]).map Page.id)
          = room.pages.map Page.id ++ [now] := by
      intro room _
      rw [List.map_append, updateFirst_map_id]
      rfl
    have hold : (((getR s rid).getD { participants := none, pages := [] }).pages.map Page.id).Pairwise (· < ·) ∧
        ∀ i ∈ ((getR s rid).getD { participants := none, pages := [] }).pages.map Page.id, i ≤ b := by
      cases hr : getR s rid with
      | some room =>
        have := hg.2 rid
        rw [pageIds_eq_of_getR s rid room hr] at this
        simpa using this
      | none => simp
    refine ⟨?_, fun rid2 => ?_⟩
    · simp only [addPageH, hv, if_true]
      exact keysR_nodup_setR s rid _ hg.1
    · by_cases he : rid = rid2
      · subst he
        have hset : pageIds (addPageH s rid pid img now).1 rid
            = (updateFirst pid img ((getR s rid).getD { participants := none, pages := [] }).pages
                ++ [({ id := now, imageData := "" } : Page)]).map Page.id := by
          simp [addPageH, hv, pageIds_setR_self]
        rw [hset, hids _ rfl]
        constructor
        · exact pairwise_append_big _ b now hold.1 hold.2 hlt
        · intro i hi
          rcases List.mem_append.mp hi with h1 | h1
          · exact le_trans (hold.2 i h1) (le_of_lt hlt)
          · simp only [List.mem_singleton] at h1
            omega
      · have hset : pageIds (addPageH s rid pid img now).1 rid2 = pageIds s rid2 := by
          simp only [addPageH, hv, if_true]
          exact pageIds_setR_ne s rid rid2 _ he
        rw [hset]
        exact ⟨(hg.2 rid2).1,
          fun i hi => le_trans ((hg.2 rid2).2 i hi) (le_of_lt hlt)⟩
  · simp only [addPageH, hv, if_false]
    exact GoodState_mono b now s hg (le_of_lt hlt)

theorem filter_map_id_sorted (pages : List Page) (pid : Nat)
    (hs : (pages.map Page.id).Pairwise (· < ·)) :
    ((pages.filter (fun p => p.id ≠ pid)).map Page.id).Pairwise (· < ·) :=
  List.Pairwise.sublist ((List.filter_sublist pages).map Page.id) hs

theorem filter_map_id_subset (pages : List Page) (pid i : Nat)
    (h : i ∈ (pages.filter (fun p => p.id ≠ pid)).map Page.id) :
    i ∈ pages.map Page.id := by
  obtain ⟨p, hp, hpi⟩ := List.mem_map.mp h
  exact List.mem_map.mpr ⟨p, List.mem_of_mem_filter hp, hpi⟩

theorem removePageH_good (b : Nat) (s : Registry) (rid : String) (pid : Nat)
    (hg : GoodState b s) : GoodState b (removePageH s rid pid).1 := by
  by_cases hv : validateRoomId rid
  · cases hr : getR s rid with
    | some room =>
      have hpg := hg.2 rid
      rw [pageIds_eq_of_getR s rid room hr] at hpg
      refine ⟨?_, fun rid2 => ?_⟩
      · simp only [removePageH, hv, if_true, hr]
        exact keysR_nodup_setR s rid _ hg.1
      · by_cases he : rid = rid2
        · subst he
          have hset : pageIds (removePageH s rid pid).1 rid
              = (room.pages.filter (fun p => p.id ≠ pid)).map Page.id := by
            simp [removePageH, hv, hr, pageIds_setR_self]
          rw [hset]
          exact ⟨filter_map_id_sorted room.pages pid hpg.1,
            fun i hi => hpg.2 i (filter_map_id_subset room.pages pid i hi)⟩
        · have hset : pageIds (removePageH s rid pid).1 rid2 = pageIds s rid2 := by
            simp only [removePageH, hv, if_true, hr]
            exact pageIds_setR_ne s rid rid2 _ he
          rw [hset]
          exact hg.2 rid2
    | none =>
      simpa [removePageH, hv, hr] using hg
  · simpa [removePageH, hv] using hg

theorem updatePageH_good (b : Nat) (s : Registry) (rid : String) (pid : Nat)
    (img : String) (hg : GoodState b s) : GoodState b (updatePageH s rid pid img) := by
  by_cases hv : validateRoomId rid
  · cases hr : getR s rid with
    | some room =>
      have hpg := hg.2 rid
      rw [pageIds_eq_of_getR s rid room hr] at hpg
      refine ⟨?_, fun rid2 => ?_⟩
      · simp only [updatePageH, hv, if_true, hr]
        exact keysR_nodup_setR s rid _ hg.1
      · by_cases he : rid = rid2
        · subst he
          have hset : pageIds (updatePageH s rid pid img) rid
              = (updateFirst pid img room.pages).map Page.id := by
            simp [updatePageH, hv, hr, pageIds_setR_self]
          rw [hset, updateFirst_map_id]
          exact hpg
        · have hset : pageIds (updatePageH s rid pid img) rid2 = pageIds s rid2 := by
            simp only [updatePageH, hv, if_true, hr]
            exact pageIds_setR_ne s rid rid2 _ he
          rw [hset]
          exact hg.2 rid2
    | none =>
      simpa [updatePageH, hv, hr] using hg
  · simpa [updatePageH, hv] using hg

theorem disconnectRoom_good (b : Nat) (s : Registry) (rid : String)
    (hg : GoodState b s) : GoodState b (disconnectRoom s rid) := by
  cases hr : getR s rid with
  | some room =>
    by_cases hz : leZeroOpt (decOpt room.participants)
    · refine ⟨?_, fun rid2 => ?_⟩
      · simp only [disconnectRoom, hr, hz, if_true]
        exact keysR_nodup_delR s rid hg.1
      · by_cases he : rid = rid2
        · subst he
          have hset : pageIds (disconnectRoom s rid) rid = [] := by
            simp only [disconnectRoom, hr, hz, if_true]
            exact pageIds_delR_self s rid hg.1
          rw [hset]
          simp
        · have hset : pageIds (disconnectRoom s rid) rid2 = pageIds s rid2 := by
            simp only [disconnectRoom, hr, hz, if_true]
            exact pageIds_delR_ne s rid rid2 he
          rw [hset]
          exact hg.2 rid2
    · refine ⟨?_, fun rid2 => ?_⟩
      · simp only [disconnectRoom, hr, hz, if_false]
        exact keysR_nodup_setR s rid _ hg.1
      · by_cases he : rid = rid2
        · subst he
          have hset : pageIds (disconnectRoom s rid) rid = room.pages.map Page.id := by
            simp [disconnectRoom, hr, hz, pageIds_setR_self]
          rw [hset]
          have hpg := hg.2 rid
          rw [pageIds_eq_of_getR s rid room hr] at hpg
          exact hpg
        · have hset : pageIds (disconnectRoom s rid) rid2 = pageIds s rid2 := by
            simp only [disconnectRoom, hr, hz, if_false]
            exact pageIds_setR_ne s rid rid2 _ he
          rw [hset]
          exact hg.2 rid2
  | none => simpa [disconnectRoom, hr] using hg

theorem disconnectH_good (b : Nat) (joined : List String) (s : Registry)
    (hg : GoodState b s) : GoodState b (disconnectH s joined) := by
  induction joined generalizing s with
  | nil => exact hg
  | cons rid r ih => exact ih _ (disconnectRoom_good b s rid hg)

/-! ### Old page ids never (re)appear: per-handler lemmas -/

theorem joinH_old_ids (b now : Nat) (s : Registry) (rid rid2 : String) (p : Nat)
    (hlt : b < now) (hm : p ∈ pageIds (joinH s rid now).1 rid2) (hp : p ≤ b) :
    p ∈ pageIds s rid2 := by
  by_cases hv : validateRoomId rid
  · by_cases he : rid = rid2
    · subst he
      cases hr : getR s rid with
      | some room =>
        have hset : pageIds (joinH s rid now).1 rid = room.pages.map Page.id := by
          simp [joinH, hv, hr, pageIds_setR_self]
        rw [hset] at hm
        rw [pageIds_eq_of_getR s rid room hr]
        exact hm
      | none =>
        have hset : pageIds (joinH s rid now).1 rid
            = [({ id := now, imageData := "" } : Page)].map Page.id := by
          simp [joinH, hv, hr, pageIds_setR_self]
        rw [hset] at hm
        simp only [List.map_cons, List.map_nil, List.mem_singleton] at hm
        omega
    · have hset : pageIds (joinH s rid now).1 rid2 = pageIds s rid2 := by
        simp only [joinH, hv, if_true]
        exact pageIds_setR_ne s rid rid2 _ he
      rw [hset] at hm
      exact hm
  · simpa [joinH, hv] using hm

theorem addPageH_old_ids (b now : Nat) (s : Registry) (rid rid2 : String)
    (pid p : Nat) (img : String)
    (hlt : b < now) (hm : p ∈ pageIds (addPageH s rid pid img now).1 rid2)
    (hp : p ≤ b) : p ∈ pageIds s rid2 := by
  by_cases hv : validateRoomId rid
  · by_cases he : rid = rid2
    · subst he
      have hset : pageIds (addPageH s rid pid img now).1 rid
          = (updateFirst pid img ((getR s rid).getD { participants := none, pages := [] }).pages
              ++ [({ id := now, imageData := "" } : Page)]).map Page.id := by
        simp [addPageH, hv, pageIds_setR_self]
      rw [hset, List.map_append, updateFirst_map_id] at hm
      rcases List.mem_append.mp hm with h1 | h1
      · cases hr : getR s rid with
        | some room =>
          rw [hr] at h1
          rw [pageIds_eq_of_getR s rid room hr]
          simpa using h1
        | none =>
          rw [hr] at h1
          simp at h1
      · simp only [List.map_cons, List.map_nil, List.mem_singleton] at h1
        omega
    · have hset : pageIds (addPageH s rid pid img now).1 rid2 = pageIds s rid2 := by
        simp only [addPageH, hv, if_true]
        exact pageIds_setR_ne s rid rid2 _ he
      rw [hset] at hm
      exact hm
  · simpa [addPageH, hv] using hm

theorem removePageH_old_ids (s : Registry) (rid rid2 : String) (pid p : Nat)
    (hm : p ∈ pageIds (removePageH s rid pid).1 rid2) : p ∈ pageIds s rid2 := by
  by_cases hv : validateRoomId rid
  · cases hr : getR s rid with
    | some room =>
      by_cases he : rid = rid2
      · subst he
        have hset : pageIds (removePageH s rid pid).1 rid
            = (room.pages.filter (fun p => p.id ≠ pid)).map Page.id := by
          simp [removePageH, hv, hr, pageIds_setR_self]
        rw [hset] at hm
        rw [pageIds_eq_of_getR s rid room hr]
        exact filter_map_id_subset room.pages pid p hm
      · have hset : pageIds (removePageH s rid pid).1 rid2 = pageIds s rid2 := by
          simp only [removePageH, hv, if_true, hr]
          exact pageIds_setR_ne s rid rid2 _ he
        rw [hset] at hm
        exact hm
    | none => simpa [removePageH, hv, hr] using hm
  · simpa [removePageH, hv] using hm

theorem updatePageH_old_ids (s : Registry) (rid rid2 : String) (pid p : Nat)
    (img : String)
    (hm : p ∈ pageIds (updatePageH s rid pid img) rid2) : p ∈ pageIds s rid2 := by
  by_cases hv : validateRoomId rid
  · cases hr : getR s rid with
    | some room =>
      by_cases he : rid = rid2
      · subst he
        have hset : pageIds (updatePageH s rid pid img) rid
            = (updateFirst pid img room.pages).map Page.id := by
          simp [updatePageH, hv, hr, pageIds_setR_self]
        rw [hset, updateFirst_map_id] at hm
        rw [pageIds_eq_of_getR s rid room hr]
        exact hm
      · have hset : pageIds (updatePageH s rid pid img) rid2 = pageIds s rid2 := by
          simp only [updatePageH, hv, if_true, hr]
          exact pageIds_setR_ne s rid rid2 _ he
        rw [hset] at hm
        exact hm
    | none => simpa [updatePageH, hv, hr] using hm
  · simpa [updatePageH, hv] using hm

theorem disconnectRoom_old_ids (s : Registry) (rid rid2 : String) (p : Nat)
    (hnd : (keysR s).Nodup)
    (hm : p ∈ pageIds (disconnectRoom s rid) rid2) : p ∈ pageIds s rid2 := by
  cases hr : getR s rid with
  | some room =>
    by_cases hz : leZeroOpt (decOpt room.participants)
    · by_cases he : rid = rid2
      · subst he
        have hset : pageIds (disconnectRoom s rid) rid = [] := by
          simp only [disconnectRoom, hr, hz, if_true]
          exact pageIds_delR_self s rid hnd
        rw [hset] at hm
        simp at hm
      · have hset : pageIds (disconnectRoom s rid) rid2 = pageIds s rid2 := by
          simp only [disconnectRoom, hr, hz, if_true]
          exact pageIds_delR_ne s rid rid2 he
        rw [hset] at hm
        exact hm
    · by_cases he : rid = rid2
      · subst he
        have hset : pageIds (disconnectRoom s rid) rid = room.pages.map Page.id := by
          simp [disconnectRoom, hr, hz, pageIds_setR_self]
        rw [hset] at hm
        rw [pageIds_eq_of_getR s rid room hr]
        exact hm
      · have hset : pageIds (disconnectRoom s rid) rid2 = pageIds s rid2 := by
          simp only [disconnectRoom, hr, hz, if_false]
          exact pageIds_setR_ne s rid rid2 _ he
        rw [hset] at hm
        exact hm
  | none => simpa [disconnectRoom, hr] using hm

theorem disconnectH_old_ids (joined : List String) (s : Registry)
    (rid2 : String) (p : Nat) (hnd : (keysR s).Nodup)
    (hm : p ∈ pageIds (disconnectH s joined) rid2) : p ∈ pageIds s rid2 := by
  induction joined generalizing s with
  | nil => exact hm
  | cons rid r ih =>
    have hnd2 : (keysR (disconnectRoom s rid)).Nodup := by
      cases hr : getR s rid with
      | some room =>
        by_cases hz : leZeroOpt (decOpt room.participants)
        · simp only [disconnectRoom, hr, hz, if_true]
          exact keysR_nodup_delR s rid hnd
        · simp only [disconnectRoom, hr, hz, if_false]
          exact keysR_nodup_setR s rid _ hnd
      | none => simpa [disconnectRoom, hr] using hnd
    exact disconnectRoom_old_ids s rid rid2 p hnd (ih _ hnd2 hm)

/-! ### Trace-level invariants -/

theorem runFrom_append (s : Registry) (t1 t2 : List Event) :
    runFrom s (t1 ++ t2) = runFrom (runFrom s t1) t2 := by
  induction t1 generalizing s with
  | nil => rfl
  | cons e r ih =>
    simp only [List.cons_append, runFrom]
    exact ih (stepE s e)

theorem clockAfter_append (b : Nat) (t1 t2 : List Event) :
    clockAfter b (t1 ++ t2) = clockAfter (clockAfter b t1) t2 := by
  induction t1 generalizing b with
  | nil => rfl
  | cons e r ih =>
    cases he : eventNow e <;>
      simp only [List.cons_append, clockAfter, he] <;> exact ih _

theorem ClockOK_append_left (b : Nat) (t1 t2 : List Event)
    (h : ClockOK b (t1 ++ t2)) : ClockOK b t1 := by
  induction t1 generalizing b with
  | nil => trivial
  | cons e r ih =>
    cases he : eventNow e <;>
      simp only [List.cons_append, ClockOK, he] at h ⊢
    · exact ih b h
    · exact ⟨h.1, ih _ h.2⟩

theorem ClockOK_append_right (b : Nat) (t1 t2 : List Event)
    (h : ClockOK b (t1 ++ t2)) : ClockOK (clockAfter b t1) t2 := by
  induction t1 generalizing b with
  | nil => exact h
  | cons e r ih =>
    cases he : eventNow e <;>
      simp only [List.cons_append, ClockOK, clockAfter, he] at h ⊢
    · exact ih b h
    · exact ih _ h.2

theorem clockAfter_le (b : Nat) (tr : List Event) (h : ClockOK b tr) :
    b ≤ clockAfter b tr := by
  induction tr generalizing b with
  | nil => exact le_refl b
  | cons e r ih =>
    cases he : eventNow e <;>
      simp only [ClockOK, clockAfter, he] at h ⊢
    · exact ih b h
    · exact le_trans (le_of_lt h.1) (ih _ h.2)

theorem runFrom_good (tr : List Event) (b : Nat) (s : Registry)
    (hg : GoodState b s) (hc : ClockOK b tr) :
    GoodState (clockAfter b tr) (runFrom s tr) := by
  induction tr generalizing b s with
  | nil => exact hg
  | cons e r ih =>
    cases e with
    | join rid now =>
      simp only [ClockOK, eventNow] at hc
      simp only [runFrom, stepE, clockAfter, eventNow]
      exact ih now _ (joinH_good b now s rid hg hc.1) hc.2
    | addPage rid pid img now =>
      simp only [ClockOK, eventNow] at hc
      simp only [runFrom, stepE, clockAfter, eventNow]
      exact ih now _ (addPageH_good b now s rid pid img hg hc.1) hc.2
    | removePage rid pid =>
      simp only [ClockOK, eventNow] at hc
      simp only [runFrom, stepE, clockAfter, eventNow]
      exact ih b _ (removePageH_good b s rid pid hg) hc
    | updatePage rid pid img =>
      simp only [ClockOK, eventNow] at hc
      simp only [runFrom, stepE, clockAfter, eventNow]
      exact ih b _ (updatePageH_good b s rid pid img hg) hc
    | disconnect joined =>
      simp only [ClockOK, eventNow] at hc
      simp only [runFrom, stepE, clockAfter, eventNow]
      exact ih b _ (disconnectH_good b joined s hg) hc

theorem runFrom_old_ids (tr : List Event) (b : Nat) (s : Registry)
    (rid2 : String) (p : Nat) (hg : GoodState b s) (hc : ClockOK b tr)
    (hm : p ∈ pageIds (runFrom s tr) rid2) (hp : p ≤ b) :
    p ∈ pageIds s rid2 := by
  induction tr generalizing b s with
  | nil => exact hm
  | cons e r ih =>
    cases e with
    | join rid now =>
      simp only [ClockOK, eventNow] at hc
      simp only [runFrom, stepE] at hm
      have h2 := ih now _ (joinH_good b now s rid hg hc.1) hc.2 hm
        (le_trans hp (le_of_lt hc.1))
      exact joinH_old_ids b now s rid rid2 p hc.1 h2 hp
    | addPage rid pid img now =>
      simp only [ClockOK, eventNow] at hc
      simp only [runFrom, stepE] at hm
      have h2 := ih now _ (addPageH_good b now s rid pid img hg hc.1) hc.2 hm
        (le_trans hp (le_of_lt hc.1))
      exact addPageH_old_ids b now s rid rid2 pid p img hc.1 h2 hp
    | removePage rid pid =>
      simp only [ClockOK, eventNow] at hc
      simp only [runFrom, stepE] at hm
      have h2 := ih b _ (removePageH_good b s rid pid hg) hc hm hp
      exact removePageH_old_ids s rid rid2 pid p h2
    | updatePage rid pid img =>
      simp only [ClockOK, eventNow] at hc
      simp only [runFrom, stepE] at hm
      have h2 := ih b _ (updatePageH_good b s rid pid img hg) hc hm hp
      exact updatePageH_old_ids s rid rid2 pid p img h2
    | disconnect joined =>
      simp only [ClockOK, eventNow] at hc
      simp only [runFrom, stepE] at hm
      have h2 := ih b _ (disconnectH_good b joined s hg) hc hm hp
      exact disconnectH_old_ids joined s rid2 p hg.1 h2

/-- **C4** (corrected, with the clock hypothesis the counterexample forces).
For any trace of events whose `Date.now()` readings strictly increase
(`ClockOK`: no two page creations in the same millisecond and no clock
regression), every room's page-id list as served by `requestInitialState` is
strictly increasing — hence pairwise distinct and in creation (insertion)
order, removal only erasing positions — and an id absent at some prefix of
the trace but within that prefix's clock bound (in particular, any id that
was removed) never appears later: every id present after `tr1 ++ tr2` that
is at most `clockAfter b tr1` was already present after `tr1`. -/
theorem page_ids_sorted_no_reappear (b : Nat) (tr1 tr2 : List Event)
    (rid : String) (hc : ClockOK b (tr1 ++ tr2)) :
    ((requestInitialStateH (runTrace (tr1 ++ tr2)) rid).map Page.id).Pairwise (· < ·) ∧
    ((requestInitialStateH (runTrace (tr1 ++ tr2)) rid).map Page.id).Nodup ∧
    (∀ p, p ∈ (requestInitialStateH (runTrace (tr1 ++ tr2)) rid).map Page.id →
      p ≤ clockAfter b tr1 →
      p ∈ (requestInitialStateH (runTrace tr1) rid).map Page.id) := by
  have hg := runFrom_good (tr1 ++ tr2) b [] (GoodState_nil b) hc
  have hsorted := (hg.2 rid).1
  rw [pageIds] at hsorted
  refine ⟨hsorted, ?_, ?_⟩
  · exact List.Pairwise.imp (fun hab => Nat.ne_of_lt hab) hsorted
  · intro p hm hp
    have hg1 := runFrom_good tr1 b [] (GoodState_nil b) (ClockOK_append_left b tr1 tr2 hc)
    have hc2 := ClockOK_append_right b tr1 tr2 hc
    have hm2 : p ∈ pageIds (runFrom (runFrom [] tr1) tr2) rid := by
      rw [pageIds]
      rw [← runFrom_append [] tr1 tr2]
      exact hm
    have := runFrom_old_ids tr2 (clockAfter b tr1) (runFrom [] tr1) rid p
      hg1 hc2 hm2 hp
    rw [pageIds] at this
    exact this

/-- Witness for C4: with strictly increasing clock readings 100 < 200 < 300
(join, addPage, addPage) followed by a removal of page 200, the page-id list
of room `"r"` is the duplicate-free, creation-ordered `[100, 300]`, and an
id within the prefix bound present at the end (100) was already present
after the prefix. -/
theorem page_ids_sorted_no_reappear_witness :
    ((requestInitialStateH (runTrace ([Event.join "r" 100, .addPage "r" 100 "s1" 200]
        ++ [.addPage "r" 200 "s2" 300, .removePage "r" 200])) "r").map Page.id).Nodup ∧
    (requestInitialStateH (runTrace ([Event.join "r" 100, .addPage "r" 100 "s1" 200]
        ++ [.addPage "r" 200 "s2" 300, .removePage "r" 200])) "r").map Page.id
      = [100, 300] ∧
    (100 ∈ (requestInitialStateH (runTrace [Event.join "r" 100,
        .addPage "r" 100 "s1" 200]) "r").map Page.id) := by
  have h := page_ids_sorted_no_reappear 0
    [Event.join "r" 100, .addPage "r" 100 "s1" 200]
    [Event.addPage "r" 200 "s2" 300, .removePage "r" 200] "r"
    (by simp [ClockOK, eventNow])
  refine ⟨h.2.1, by decide, ?_⟩
  exact h.2.2 100 (by decide) (by decide)

end Collab
